import Mathlib

/-!
Verification of the runs-on/config validation pipeline.

The development shallowly embeds the Go package `pkg/validate` together
with the CLI driver `cmd/lint` and the CUE schema `schema.cue`:

* `Val` models the dynamic YAML value (`interface{}` after
  `yaml.Unmarshal`); mappings are association lists with `String` keys,
  mirroring `map[string]interface{}`.
* `normalizeSpotValues` and its helpers are a direct transcription of
  `normalizeSpotValues` in `pkg/validate/validator.go` (the
  `map[string]interface{}` branch; the `map[interface{}]interface{}`
  branch of the source is logic-identical).
* `YNode` models `yaml.Node` (kind, value, line, column, content) and
  `checkDeprecatedFields` / `checkDeprecatedFieldsRecursive` transcribe
  the deprecation scanners of `validator.go`.
* The structural schema validator is modelled from the specification
  (§4.3) because the source delegates it to the external CUE engine; the
  schema shapes themselves (open root, closed spec structs, unions) are
  transcribed from `schema.cue`.
* `combineDiagnostics` and `validateReaderModel` assemble the pipeline
  exactly as `ValidateReader` does, and `exitCodeOf` / `jsonValid` model
  the CLI driver in `cmd/lint/main.go`.
-/

namespace RunsOnConfig

/-- A parsed YAML value, mirroring the dynamic `interface{}` tree produced
by `yaml.Unmarshal` in `ValidateReader`.  Mappings keep their entries as an
association list (Go's `map[string]interface{}` has unique keys; where a
proof needs that fact it assumes the well-formedness predicate `WF`). -/
inductive Val : Type where
  | null : Val
  | bool (b : Bool) : Val
  | int (n : Int) : Val
  | str (s : String) : Val
  | seq (xs : List Val) : Val
  | map (entries : List (String × Val)) : Val

/-- First entry of the association list with the given key, as Go map
lookup (Go maps cannot hold duplicate keys, so first-match is exact). -/
def lookupFirst : List (String × Val) → String → Option Val
  | [], _ => none
  | (k, v) :: rest, key => if k = key then some v else lookupFirst rest key

mutual

/-- Transcription of `normalizeSpotValues` (validator.go): the generic
recursion over the dynamic tree.  On a mapping it treats the value of a
`runners` key specially and recurses into everything else; sequences are
mapped elementwise; scalars are returned unchanged. -/
def normalizeSpotValues : Val → Val
  | .map entries => .map (normTopEntries entries)
  | .seq xs => .seq (normList xs)
  | v => v

/-- Entries of a generic mapping: the `runners` key gets the special
runners-map handling, every other value is normalized generically. -/
def normTopEntries : List (String × Val) → List (String × Val)
  | [] => []
  | (k, v) :: rest =>
    (k, if k = "runners" then normRunnersVal v else normalizeSpotValues v) :: normTopEntries rest

/-- The value found under a `runners` key: if it is a mapping it is scanned
runner by runner, otherwise it is normalized generically (the `ok` type
assertion failing in the source). -/
def normRunnersVal : Val → Val
  | .map rm => .map (normRunners rm)
  | v => normalizeSpotValues v

/-- Entries of the runners map: each runner value goes through
`normRunnerVal`. -/
def normRunners : List (String × Val) → List (String × Val)
  | [] => []
  | (rk, rv) :: rest => (rk, normRunnerVal rv) :: normRunners rest

/-- One runner's value: if it is a mapping its fields are scanned for
`spot`, otherwise generic normalization. -/
def normRunnerVal : Val → Val
  | .map spec => .map (normSpec spec)
  | v => normalizeSpotValues v

/-- Fields of one runner spec: the `spot` field gets the boolean-to-string
coercion, every other field is normalized generically. -/
def normSpec : List (String × Val) → List (String × Val)
  | [] => []
  | (sk, sv) :: rest =>
    (sk, if sk = "spot" then normSpotVal sv else normalizeSpotValues sv) :: normSpec rest

/-- The `spot` field's value: Bool(true) becomes String("true"),
Bool(false) becomes String("false"), anything else is normalized
generically (the source's else-branch recursion). -/
def normSpotVal : Val → Val
  | .bool b => .str (if b then "true" else "false")
  | v => normalizeSpotValues v

/-- Sequence elements are normalized generically, in order. -/
def normList : List Val → List Val
  | [] => []
  | x :: rest => normalizeSpotValues x :: normList rest

end

/-- One step of a path into a `Val` tree: a mapping key or a sequence
index. -/
inductive PathElem : Type where
  | key (k : String) : PathElem
  | idx (i : Nat) : PathElem
deriving DecidableEq, Repr

/-- Follow a path into a value: mapping keys resolve to the first entry
with that key (Go map semantics), sequence indices to the element. -/
def getP : Val → List PathElem → Option Val
  | v, [] => some v
  | .map es, .key k :: p =>
    match lookupFirst es k with
    | some v => getP v p
    | none => none
  | .seq xs, .idx i :: p =>
    match xs.get? i with
    | some v => getP v p
    | none => none
  | _, _ => none

mutual

/-- Well-formedness of a dynamic value: every mapping in the tree has
pairwise distinct keys.  Trees produced by `yaml.Unmarshal` into Go maps
always satisfy this. -/
def wfVal : Val → Bool
  | .map es => wfKeys (es.map Prod.fst) && wfEntries es
  | .seq xs => wfList xs
  | _ => true

/-- Key lists must be duplicate-free. -/
def wfKeys : List String → Bool
  | [] => true
  | k :: rest => !rest.contains k && wfKeys rest

/-- All mapping entry values are well-formed. -/
def wfEntries : List (String × Val) → Bool
  | [] => true
  | (_, v) :: rest => wfVal v && wfEntries rest

/-- All sequence elements are well-formed. -/
def wfList : List Val → Bool
  | [] => true
  | x :: rest => wfVal x && wfList rest

end

/-- Severity of a diagnostic, mirroring the `Severity` string constants of
validator.go. -/
inductive Severity : Type where
  | error : Severity
  | warning : Severity
deriving DecidableEq, Repr

/-- Transcription of `Diagnostic` from validator.go. -/
structure Diagnostic : Type where
  path : String
  line : Nat
  column : Nat
  message : String
  severity : Severity
deriving DecidableEq, Repr

/-! ### CLI driver (cmd/lint/main.go) -/

/-- Error counting loop of `main` in cmd/lint/main.go: warnings do not
count. -/
def errorCount (diags : List Diagnostic) : Nat :=
  (diags.filter (fun d => d.severity = Severity.error)).length

/-- Exit-code policy of `main`: zero exactly when no Error-severity
diagnostic was produced. -/
def exitCodeOf (diags : List Diagnostic) : Nat :=
  if errorCount diags > 0 then 1 else 0

/-- The `valid` field computed by `outputJSON`: `len(diags) == 0`,
counting warnings as well as errors. -/
def jsonValid (diags : List Diagnostic) : Bool :=
  diags.length = 0

/-! ### The position-bearing tree (`yaml.Node`) and the deprecation
scanner -/

/-- The node kinds of `yaml.Node` used by the scanner. -/
inductive YKind : Type where
  | document : YKind
  | mapping : YKind
  | sequence : YKind
  | scalar : YKind
  | aliasK : YKind
deriving DecidableEq, Repr

/-- Model of `yaml.Node`: kind, scalar/key text, position, children.  In a
mapping node `content` alternates key and value nodes, as in the yaml
library. -/
inductive YNode : Type where
  | node (kind : YKind) (value : String) (line column : Nat)
      (content : List YNode) : YNode

/-- Node kind accessor. -/
def YNode.kind : YNode → YKind
  | .node k _ _ _ _ => k

/-- Node scalar/key text accessor. -/
def YNode.value : YNode → String
  | .node _ v _ _ _ => v

/-- Node line accessor. -/
def YNode.line : YNode → Nat
  | .node _ _ l _ _ => l

/-- Node column accessor. -/
def YNode.column : YNode → Nat
  | .node _ _ _ c _ => c

/-- Node children accessor. -/
def YNode.content : YNode → List YNode
  | .node _ _ _ _ c => c

/-- The `for i := 0; i < len; i += 2 { if i+1 >= len { break } … }` loop
shape over a mapping's content: consecutive (key, value) pairs, dropping a
trailing lone node. -/
def pairs {α : Type} : List α → List (α × α)
  | a :: b :: rest => (a, b) :: pairs rest
  | _ => []

/-- The `for k := 0; k < len; k += 2 { if k >= len { break } … }` loop
shape of the innermost field scan: every even-indexed node (the guard
`k >= len` never fires, so a trailing lone node is still read as a key). -/
def evenIdx {α : Type} : List α → List α
  | a :: _ :: rest => a :: evenIdx rest
  | [a] => [a]
  | [] => []

/-- Warning text for a deprecated `disk` field (validator.go line 241). -/
def diskDeprecationMsg : String :=
  "field \'disk\' is deprecated, use \'volume\' instead (e.g., volume=80gb:gp3:125mbs:3000iops)"

/-- Warning text for a deprecated `environment` field (validator.go line
269). -/
def envDeprecationMsg : String :=
  "field \'environment\' is deprecated, use \'env\' instead"

/-- Scan of one runner's mapping content for `disk` keys
(validator.go lines 230-245). -/
def scanRunnerFields (src : String) (fieldNodes : List YNode) : List Diagnostic :=
  (evenIdx fieldNodes).foldr
    (fun fieldKeyNode acc =>
      if fieldKeyNode.value = "disk" then
        ⟨src, fieldKeyNode.line, fieldKeyNode.column, diskDeprecationMsg, .warning⟩ :: acc
      else acc) []

/-- Scan of one pool's mapping content for `environment` keys
(validator.go lines 258-273). -/
def scanPoolFields (src : String) (fieldNodes : List YNode) : List Diagnostic :=
  (evenIdx fieldNodes).foldr
    (fun fieldKeyNode acc =>
      if fieldKeyNode.value = "environment" then
        ⟨src, fieldKeyNode.line, fieldKeyNode.column, envDeprecationMsg, .warning⟩ :: acc
      else acc) []

/-- Scan of the `runners` map: each runner whose value is a mapping has
its fields scanned for `disk` (validator.go lines 222-247). -/
def scanRunnersMap (src : String) (entries : List (YNode × YNode)) : List Diagnostic :=
  entries.foldr
    (fun e acc =>
      (if e.2.kind = YKind.mapping then scanRunnerFields src e.2.content else []) ++ acc) []

/-- Scan of the `pools` map: each pool whose value is a mapping has its
fields scanned for `environment` (validator.go lines 250-275). -/
def scanPoolsMap (src : String) (entries : List (YNode × YNode)) : List Diagnostic :=
  entries.foldr
    (fun e acc =>
      (if e.2.kind = YKind.mapping then scanPoolFields src e.2.content else []) ++ acc) []

/-- Transcription of `checkDeprecatedFields` (validator.go lines 199-282):
only a document whose root is a mapping is scanned, and only the direct
`runners` and `pools` entries of that root mapping are inspected. -/
def checkDeprecatedFields (src : String) (doc : YNode) : List Diagnostic :=
  match doc with
  | .node .document _ _ _ (root :: _) =>
    match root with
    | .node .mapping _ _ _ rootContent =>
      (pairs rootContent).foldr
        (fun e acc =>
          (if e.1.value = "runners" ∧ e.2.kind = YKind.mapping then
            scanRunnersMap src (pairs e.2.content)
          else if e.1.value = "pools" ∧ e.2.kind = YKind.mapping then
            scanPoolsMap src (pairs e.2.content)
          else []) ++ acc) []
    | _ => []
  | _ => []

mutual

/-- Transcription of `checkDeprecatedFieldsRecursive` (validator.go lines
284-402), the position-less fallback used when the document cannot be
re-parsed with line information: it walks the dynamic tree, handles
`runners` and `pools` keys specially (without recursing into them) and
recurses into every other mapping value and into sequence elements. -/
def checkDeprecatedFieldsRecursive (src : String) (data : Val) (path : String) : List Diagnostic :=
  match data with
  | .map es => checkDeprecatedEntries src es path
  | .seq xs => checkDeprecatedItems src xs path 0
  | _ => []

/-- Mapping entries of the fallback scanner. -/
def checkDeprecatedEntries (src : String) : List (String × Val) → String → List Diagnostic
  | [], _ => []
  | (key, value) :: rest, path =>
    let currentPath := if path = "" then key else path ++ "." ++ key
    (if key = "runners" then
      match value with
      | .map runnersMap => checkRunnersDisk src runnersMap
      | _ => []
    else if key = "pools" then
      match value with
      | .map poolsMap => checkPoolsEnvironment src poolsMap
      | _ => []
    else
      checkDeprecatedFieldsRecursive src value currentPath)
    ++ checkDeprecatedEntries src rest path

/-- Fallback scan of a `runners` map: one warning per runner whose mapping
holds a `disk` key, message naming the runner, position 0. -/
def checkRunnersDisk (src : String) : List (String × Val) → List Diagnostic
  | [] => []
  | (runnerKey, runnerValue) :: rest =>
    (match runnerValue with
    | .map runnerSpec =>
      match lookupFirst runnerSpec "disk" with
      | some _ =>
        [⟨src, 0, 0,
          "field \'runners." ++ runnerKey ++ ".disk\' is deprecated, use \'volume\' instead (e.g., volume=80gb:gp3:125mbs:3000iops)",
          .warning⟩]
      | none => []
    | _ => []) ++ checkRunnersDisk src rest

/-- Fallback scan of a `pools` map: one warning per pool whose mapping
holds an `environment` key, position 0. -/
def checkPoolsEnvironment (src : String) : List (String × Val) → List Diagnostic
  | [] => []
  | (poolKey, poolValue) :: rest =>
    (match poolValue with
    | .map poolSpec =>
      match lookupFirst poolSpec "environment" with
      | some _ =>
        [⟨src, 0, 0,
          "field \'pools." ++ poolKey ++ ".environment\' is deprecated, use \'env\' instead",
          .warning⟩]
      | none => []
    | _ => []) ++ checkPoolsEnvironment src rest

/-- Sequence items of the fallback scanner, with the `%s[%d]` path. -/
def checkDeprecatedItems (src : String) : List Val → String → Nat → List Diagnostic
  | [], _, _ => []
  | item :: rest, path, i =>
    checkDeprecatedFieldsRecursive src item (path ++ "[" ++ toString i ++ "]")
    ++ checkDeprecatedItems src rest path (i + 1)

end

/-! ### Schema model

The node shapes follow the specification's `SchemaNode` union (§3); the
fixed schema instance below is transcribed from `schema.cue`. -/

/-- Scalar constraints: none, a fixed enumeration of string literals, a
numeric lower bound, or the one regular expression of the schema
(`^[a-z0-9_-]+$` on pool names). -/
inductive SConstraint : Type where
  | noC : SConstraint
  | enumC (allowed : List String) : SConstraint
  | minC (lo : Int) : SConstraint
  | patternLowerKebab : SConstraint
deriving DecidableEq, Repr

/-- The check performed by the schema's one regular expression,
`^[a-z0-9_-]+$`: nonempty, all characters lowercase ASCII letters,
digits, underscore or hyphen. -/
def isLowerKebab (s : String) : Bool :=
  s.length > 0 && s.toList.all fun ch =>
    ( 'a' ≤ ch && ch ≤ 'z' ) || ( '0' ≤ ch && ch ≤ '9' ) || ch = '_' || ch = '-'

/-- Constraint check for an int scalar. -/
def intConstraintOk : SConstraint → Int → Bool
  | .minC lo, n => lo ≤ n
  | _, _ => true

/-- Constraint check for a string scalar. -/
def strConstraintOk : SConstraint → String → Bool
  | .enumC allowed, s => allowed.contains s
  | .patternLowerKebab, s => isLowerKebab s
  | _, _ => true

/-- Schema nodes per §3 of the specification: scalar kinds with optional
constraint, unions, structs (fields carry name, schema and a required
flag; `isOpen` tolerates unknown keys), homogeneous arrays, homogeneous
maps. -/
inductive SchemaNode : Type where
  | sBool : SchemaNode
  | sInt (c : SConstraint) : SchemaNode
  | sString (c : SConstraint) : SchemaNode
  | sUnion (alts : List SchemaNode) : SchemaNode
  | sStruct (fields : List (String × SchemaNode × Bool)) (isOpen : Bool) : SchemaNode
  | sArray (elem : SchemaNode) : SchemaNode
  | sMapOf (val : SchemaNode) : SchemaNode

/-- `#IntArray: int | string | [...int] | [...string]` (schema.cue). -/
def schemaIntArray : SchemaNode :=
  .sUnion [.sInt .noC, .sString .noC, .sArray (.sInt .noC), .sArray (.sString .noC)]

/-- `#StringArray: string | [...string]` (schema.cue). -/
def schemaStringArray : SchemaNode :=
  .sUnion [.sString .noC, .sArray (.sString .noC)]

/-- `#BoolOrString: bool | "true" | "false"` (schema.cue). -/
def schemaBoolOrString : SchemaNode :=
  .sUnion [.sBool, .sString (.enumC ["true"]), .sString (.enumC ["false"])]

/-- `#SpotValue`: the nine-literal string enumeration of schema.cue. -/
def schemaSpotValue : SchemaNode :=
  .sUnion [.sString (.enumC ["false"]), .sString (.enumC ["never"]),
    .sString (.enumC ["true"]), .sString (.enumC ["pco"]),
    .sString (.enumC ["price-capacity-optimized"]), .sString (.enumC ["lp"]),
    .sString (.enumC ["lowest-price"]), .sString (.enumC ["co"]),
    .sString (.enumC ["capacity-optimized"])]

/-- `#RunnerSpec` (schema.cue): a closed struct, every field optional. -/
def schemaRunnerSpec : SchemaNode :=
  .sStruct [
    ("id", .sString .noC, false),
    ("cpu", schemaIntArray, false),
    ("ram", schemaIntArray, false),
    ("disk", .sString .noC, false),
    ("volume", .sString .noC, false),
    ("retry", schemaStringArray, false),
    ("extras", schemaStringArray, false),
    ("ssh", schemaBoolOrString, false),
    ("private", schemaBoolOrString, false),
    ("spot", schemaSpotValue, false),
    ("family", schemaStringArray, false),
    ("image", .sString .noC, false),
    ("preinstall", .sString .noC, false),
    ("tags", schemaStringArray, false)] false

/-- `#ImageSpec` (schema.cue): a closed struct. -/
def schemaImageSpec : SchemaNode :=
  .sStruct [
    ("id", .sString .noC, false),
    ("platform", .sString .noC, false),
    ("arch", .sString .noC, false),
    ("name", .sString .noC, false),
    ("owner", .sString .noC, false),
    ("preinstall", .sString .noC, false),
    ("ami", .sString .noC, false),
    ("main_disk_size", .sInt (.minC 0), false),
    ("root_device_name", .sString .noC, false),
    ("tags", .sMapOf (.sString .noC), false)] false

/-- `#ScheduleMatch` (schema.cue): a closed struct. -/
def schemaScheduleMatch : SchemaNode :=
  .sStruct [
    ("day", .sArray (.sString .noC), false),
    ("time", .sArray (.sString .noC), false)] false

/-- `#PoolSchedule` (schema.cue): name, stopped and hot required,
the counts non-negative. -/
def schemaPoolSchedule : SchemaNode :=
  .sStruct [
    ("name", .sString .noC, true),
    ("stopped", .sInt (.minC 0), true),
    ("hot", .sInt (.minC 0), true),
    ("match", schemaScheduleMatch, false)] false

/-- `#PoolSpec` (schema.cue): closed struct, `name` (pattern-constrained)
and `runner` required. -/
def schemaPoolSpec : SchemaNode :=
  .sStruct [
    ("name", .sString .patternLowerKebab, true),
    ("version", .sString .noC, false),
    ("env", .sString .noC, false),
    ("timezone", .sString .noC, false),
    ("schedule", .sArray schemaPoolSchedule, false),
    ("runner", .sString .noC, true),
    ("max_surge", .sInt (.minC 0), false)] false

/-- `#Config` = `#RepoConfig` (schema.cue): the document root, an OPEN
struct (trailing `...`) with only optional fields. -/
def schemaConfig : SchemaNode :=
  .sStruct [
    ("_extends", .sString .noC, false),
    ("runners", .sMapOf schemaRunnerSpec, false),
    ("images", .sMapOf schemaImageSpec, false),
    ("pools", .sMapOf schemaPoolSpec, false),
    ("admins", .sArray (.sString .noC), false)] true

/-! ### Structural validator

Modelled from the spec: the source delegates structural matching to the
external CUE unification engine (`unified.Validate()`), whose code is not
part of this repository; the recursive matcher below follows §4.3 of the
specification verbatim (scalar/union/struct/array/map rules, one
violation per field for a failed union, unknown-key violations only for
closed structs, required-field violations only in the completeness
phase). -/

/-- Dotted path extension used in violation messages. -/
def extPath (path name : String) : String :=
  if path = "" then name else path ++ "." ++ name

mutual

/-- Modelled from the spec (§4.3): whether a value satisfies a schema
node.  Used by the Union rule: try every alternative in declared order,
succeed on first match. -/
def schemaMatches : SchemaNode → Val → Bool
  | .sBool, .bool _ => true
  | .sBool, _ => false
  | .sInt c, .int n => intConstraintOk c n
  | .sInt _, _ => false
  | .sString c, .str s => strConstraintOk c s
  | .sString _, _ => false
  | .sUnion alts, v => schemaMatchesAny alts v
  | .sStruct fields isOpen, .map es =>
    schemaMatchesFields fields es &&
      (isOpen || es.all fun kv => (fields.map fun f => f.1).contains kv.1)
  | .sStruct _ _, _ => false
  | .sArray e, .seq xs => schemaMatchesElems e xs
  | .sArray _, _ => false
  | .sMapOf s, .map es => schemaMatchesEntries s es
  | .sMapOf _, _ => false

/-- Union alternatives, in declared order. -/
def schemaMatchesAny : List SchemaNode → Val → Bool
  | [], _ => false
  | s :: rest, v => schemaMatches s v || schemaMatchesAny rest v

/-- Declared struct fields: present fields must match, required fields
must be present. -/
def schemaMatchesFields : List (String × SchemaNode × Bool) → List (String × Val) → Bool
  | [], _ => true
  | (n, sch, req) :: rest, es =>
    (match lookupFirst es n with
     | some fv => schemaMatches sch fv
     | none => !req) && schemaMatchesFields rest es

/-- Array elements against the element schema. -/
def schemaMatchesElems : SchemaNode → List Val → Bool
  | _, [] => true
  | e, x :: rest => schemaMatches e x && schemaMatchesElems e rest

/-- Map entries against the value schema. -/
def schemaMatchesEntries : SchemaNode → List (String × Val) → Bool
  | _, [] => true
  | s, (_, v) :: rest => schemaMatches s v && schemaMatchesEntries s rest

end

/-- Unknown-key violations of a closed struct, in document order. -/
def unknownFieldMsgs (names : List String) : List (String × Val) → String → List String
  | [], _ => []
  | (k, _) :: rest, path =>
    if names.contains k then unknownFieldMsgs names rest path
    else (extPath path k ++ ": field not allowed") :: unknownFieldMsgs names rest path

mutual

/-- Modelled from the spec (§4.3, Phase A): general validation for type,
constraint and unknown-key violations.  Missing required fields are NOT
reported here (the engine's plain `Validate()` does not surface them —
they belong to Phase B). -/
def validateA : SchemaNode → Val → String → List String
  | .sBool, .bool _, _ => []
  | .sBool, _, path => [path ++ ": expected bool"]
  | .sInt c, .int n, path =>
    if intConstraintOk c n then [] else [path ++ ": invalid int value"]
  | .sInt _, _, path => [path ++ ": expected int"]
  | .sString c, .str s, path =>
    if strConstraintOk c s then [] else [path ++ ": invalid string value"]
  | .sString _, _, path => [path ++ ": expected string"]
  | .sUnion alts, v, path =>
    if schemaMatchesAny alts v then [] else [path ++ ": value does not match any allowed alternative"]
  | .sStruct fields isOpen, .map es, path =>
    vaFields fields es path ++
      (if isOpen then [] else unknownFieldMsgs (fields.map fun f => f.1) es path)
  | .sStruct _ _, _, path => [path ++ ": expected mapping"]
  | .sArray e, .seq xs, path => vaElems e xs path 0
  | .sArray _, _, path => [path ++ ": expected list"]
  | .sMapOf s, .map es, path => vaEntries s es path
  | .sMapOf _, _, path => [path ++ ": expected mapping"]

/-- Phase A, declared struct fields in schema declaration order. -/
def vaFields : List (String × SchemaNode × Bool) → List (String × Val) → String → List String
  | [], _, _ => []
  | (n, sch, _) :: rest, es, path =>
    (match lookupFirst es n with
     | some fv => validateA sch fv (extPath path n)
     | none => []) ++ vaFields rest es path

/-- Phase A, array elements by index. -/
def vaElems : SchemaNode → List Val → String → Nat → List String
  | _, [], _, _ => []
  | e, x :: rest, path, i =>
    validateA e x (path ++ "[" ++ toString i ++ "]") ++ vaElems e rest path (i + 1)

/-- Phase A, map entries in document order. -/
def vaEntries : SchemaNode → List (String × Val) → String → List String
  | _, [], _ => []
  | s, (k, v) :: rest, path =>
    validateA s v (extPath path k) ++ vaEntries s rest path

end

mutual

/-- Modelled from the spec (§4.3, Phase B): the completeness re-run that
reports only missing-required-field violations. -/
def validateB : SchemaNode → Val → String → List String
  | .sStruct fields _, .map es, path => vbFields fields es path
  | .sArray e, .seq xs, path => vbElems e xs path 0
  | .sMapOf s, .map es, path => vbEntries s es path
  | _, _, _ => []

/-- Phase B, declared struct fields. -/
def vbFields : List (String × SchemaNode × Bool) → List (String × Val) → String → List String
  | [], _, _ => []
  | (n, sch, req) :: rest, es, path =>
    (match lookupFirst es n with
     | some fv => validateB sch fv (extPath path n)
     | none => if req then [extPath path n ++ ": required field missing"] else []) ++
    vbFields rest es path

/-- Phase B, array elements by index. -/
def vbElems : SchemaNode → List Val → String → Nat → List String
  | _, [], _, _ => []
  | e, x :: rest, path, i =>
    validateB e x (path ++ "[" ++ toString i ++ "]") ++ vbElems e rest path (i + 1)

/-- Phase B, map entries. -/
def vbEntries : SchemaNode → List (String × Val) → String → List String
  | _, [], _ => []
  | s, (k, v) :: rest, path =>
    validateB s v (extPath path k) ++ vbEntries s rest path

end

/-! ### Pipeline assembly (`ValidateReader`) -/

/-- A parse failure of the external yaml parser: the underlying message
and the position the parser reports, when it reports one. -/
structure ParseErr : Type where
  msg : String
  pos : Option (Nat × Nat)

/-- Modelled from the spec: how the external parser's error prints (the
`%v` formatting of a yaml error) — any reported position appears in the
text. -/
def renderParseErr (e : ParseErr) : String :=
  match e.pos with
  | some lc => "yaml: line " ++ toString lc.1 ++ ": " ++ e.msg
  | none => "yaml: " ++ e.msg

/-- Raw violation messages become Error diagnostics (`convertCueErrors`
maps every engine violation to Severity `error`; positions here are the
unknown position 0). -/
def toErrorDiagnostics (src : String) (msgs : List String) : List Diagnostic :=
  msgs.map fun m => ⟨src, 0, 0, m, .error⟩

/-- Phase A diagnostics of a document, against `#Config`. -/
def phaseADiags (src : String) (v : Val) : List Diagnostic :=
  toErrorDiagnostics src (validateA schemaConfig v "")

/-- Phase B diagnostics of a document, against `#Config`. -/
def phaseBDiags (src : String) (v : Val) : List Diagnostic :=
  toErrorDiagnostics src (validateB schemaConfig v "")

/-- The `existingMsgs` lookup of `ValidateReader` (lines 110-113): is a
message already present among the Phase A diagnostics? -/
def existingMsg (schemaErrors : List Diagnostic) (m : String) : Bool :=
  schemaErrors.any fun d => d.message = m

/-- The merge of the two validation phases (`ValidateReader` lines
105-119): Phase B diagnostics are appended after Phase A, skipping any
whose message text is already present. -/
def combineDiagnostics (phaseA phaseB : List Diagnostic) : List Diagnostic :=
  phaseA ++ phaseB.filter fun d => !existingMsg phaseA d.message

/-- The whole of `ValidateReader` on parsed input: a parse error
short-circuits into a single Error diagnostic at position 0; otherwise
the document is normalized, validated twice, the phases merged, and the
deprecation warnings appended (the scanner with positions when the
document re-parses into a position tree, else the recursive fallback on
the normalized dynamic tree — mirroring `checkDeprecatedFields(yamlData,
sourceName, data)`). -/
def validateReaderModel (pr : Except ParseErr Val) (nodeRes : Option YNode)
    (src : String) : List Diagnostic :=
  match pr with
  | .error e => [⟨src, 0, 0, "YAML parse error: " ++ renderParseErr e, .error⟩]
  | .ok data =>
    let yamlData := normalizeSpotValues data
    let schemaErrors := combineDiagnostics (phaseADiags src yamlData) (phaseBDiags src yamlData)
    let deprecationWarnings :=
      match nodeRes with
      | some node => checkDeprecatedFields src node
      | none => checkDeprecatedFieldsRecursive src yamlData ""
    schemaErrors ++ deprecationWarnings

/-! ### Claim-side characterizations -/

/-- The deprecated-key occurrences of a document, as the claims describe
them: a `disk` key directly under an entry of the root's `runners`
mapping (tagged `true`), an `environment` key directly under an entry of
the root's `pools` mapping (tagged `false`), in document order. -/
def deprecatedKeyOccurrences (doc : YNode) : List (Bool × YNode) :=
  match doc with
  | .node .document _ _ _ (root :: _) =>
    match root with
    | .node .mapping _ _ _ rootContent =>
      (pairs rootContent).foldr
        (fun e acc =>
          (if e.1.value = "runners" ∧ e.2.kind = YKind.mapping then
            (pairs e.2.content).foldr
              (fun re racc =>
                (if re.2.kind = YKind.mapping then
                  ((evenIdx re.2.content).filter fun fk => fk.value = "disk").map
                    fun fk => (true, fk)
                else []) ++ racc) []
          else if e.1.value = "pools" ∧ e.2.kind = YKind.mapping then
            (pairs e.2.content).foldr
              (fun pe pacc =>
                (if pe.2.kind = YKind.mapping then
                  ((evenIdx pe.2.content).filter fun fk => fk.value = "environment").map
                    fun fk => (false, fk)
                else []) ++ pacc) []
          else []) ++ acc) []
    | _ => []
  | _ => []

/-- The single Warning diagnostic one occurrence is expected to produce:
positioned at the key token, naming the deprecated field and its
replacement. -/
def mkDeprecationWarning (src : String) (o : Bool × YNode) : Diagnostic :=
  if o.1 then ⟨src, o.2.line, o.2.column, diskDeprecationMsg, .warning⟩
  else ⟨src, o.2.line, o.2.column, envDeprecationMsg, .warning⟩

/-- The per-kind action on a `runners.*.spot` value that the amended C2
claim describes: booleans become their string form, other scalars stay
unchanged, containers are recursed into. -/
def spotRewrite : Val → Val
  | .bool b => .str (if b then "true" else "false")
  | .null => .null
  | .int n => .int n
  | .str s => .str s
  | .seq xs => normalizeSpotValues (.seq xs)
  | .map es => normalizeSpotValues (.map es)

/-- The declared field names of the document root (`#RepoConfig`). -/
def rootFieldNames : List String :=
  ["_extends", "runners", "images", "pools", "admins"]

/-- The declared field names of `#RunnerSpec`. -/
def runnerFieldNames : List String :=
  ["id", "cpu", "ram", "disk", "volume", "retry", "extras", "ssh", "private",
   "spot", "family", "image", "preinstall", "tags"]

/-- The declared field names of `#ImageSpec`. -/
def imageFieldNames : List String :=
  ["id", "platform", "arch", "name", "owner", "preinstall", "ami",
   "main_disk_size", "root_device_name", "tags"]

/-- The declared field names of `#PoolSpec`. -/
def poolFieldNames : List String :=
  ["name", "version", "env", "timezone", "schedule", "runner", "max_surge"]

/-- Idempotence of the normalizer and of each of its per-mode helpers at
one value (the helpers are mutually recursive, so their idempotences are
proved together). -/
def NormIdem (v : Val) : Prop :=
  normalizeSpotValues (normalizeSpotValues v) = normalizeSpotValues v ∧
  normRunnersVal (normRunnersVal v) = normRunnersVal v ∧
  normRunnerVal (normRunnerVal v) = normRunnerVal v ∧
  normSpotVal (normSpotVal v) = normSpotVal v

/-- Two paths are comparable when one is a prefix of the other (one lies
on the way to, at, or below the other). -/
def comparablePaths (p q : List PathElem) : Prop :=
  p <+: q ∨ q <+: p

/-- A path shaped `… → runners → <runner> → spot`: the structurally
recognized chain of the Normalizer. -/
def FullPat (s : List PathElem) : Prop :=
  ∃ q r, s = q ++ [PathElem.key "runners", PathElem.key r, PathElem.key "spot"]

/-- A spot rewrite site of a tree: a path shaped
`… → runners → <runner> → spot` whose value is a Bool — exactly the
places the Normalizer's structurally recognized `runners` chain can
rewrite. -/
def isSpotRewriteSite (t : Val) (s : List PathElem) : Prop :=
  FullPat s ∧ ∃ b, getP t s = some (.bool b)

/-- Frame property of the generic normalization mode: any path where the
output differs from the input is comparable to a Bool-valued
`runners → <runner> → spot` site of the input. -/
def FrameGen (v : Val) : Prop :=
  ∀ p, getP (normalizeSpotValues v) p ≠ getP v p →
    ∃ s, FullPat s ∧ (∃ b, getP v s = some (.bool b)) ∧ (s <+: p ∨ p <+: s)

/-- Frame property of the runners-map mode: differences are comparable to
a Bool site that is either a full pattern or a `<runner> → spot` suffix
relative to the runners map. -/
def FrameRunv (v : Val) : Prop :=
  ∀ p, getP (normRunnersVal v) p ≠ getP v p →
    ∃ s, (FullPat s ∨ ∃ r, s = [PathElem.key r, PathElem.key "spot"]) ∧
      (∃ b, getP v s = some (.bool b)) ∧ (s <+: p ∨ p <+: s)

/-- Frame property of the single-runner mode: differences are comparable
to a Bool site that is either a full pattern or the runner's own `spot`
field. -/
def FrameRunnerv (v : Val) : Prop :=
  ∀ p, getP (normRunnerVal v) p ≠ getP v p →
    ∃ s, (FullPat s ∨ s = [PathElem.key "spot"]) ∧
      (∃ b, getP v s = some (.bool b)) ∧ (s <+: p ∨ p <+: s)

/-- Frame property of the spot-value mode: differences are comparable to
a Bool site that is either a full pattern or the value itself. -/
def FrameSpotv (v : Val) : Prop :=
  ∀ p, getP (normSpotVal v) p ≠ getP v p →
    ∃ s, (FullPat s ∨ s = []) ∧
      (∃ b, getP v s = some (.bool b)) ∧ (s <+: p ∨ p <+: s)

/-- The four frame properties together. -/
def FrameAll (v : Val) : Prop :=
  FrameGen v ∧ FrameRunv v ∧ FrameRunnerv v ∧ FrameSpotv v

/-! ## Theorems -/

/-- **C1, counterexample.**  The claim says the JSON renderer reports
`valid=true` exactly when no Error-severity diagnostic is present.  On a
run producing a single Warning diagnostic, `outputJSON` computes
`valid = (len(diags) == 0) = false` although the error count is zero. -/
theorem c1_json_valid_counterexample :
    ¬ (jsonValid [⟨"f", 1, 1, "w", Severity.warning⟩] = true ↔
       errorCount [⟨"f", 1, 1, "w", Severity.warning⟩] = 0) := by
  decide

/-- **C1, amended.**  The CLI chooses exit code 0 exactly when no
Error-severity diagnostic is present; the JSON renderer, however, reports
`valid=true` exactly when the diagnostic list is empty (so a
Warning-only run exits 0 but renders `valid=false`). -/
theorem c1_verdict_amended (diags : List Diagnostic) :
    (exitCodeOf diags = 0 ↔ errorCount diags = 0) ∧
    (jsonValid diags = true ↔ diags = []) := by
  constructor
  · unfold exitCodeOf
    by_cases h : errorCount diags > 0
    · simp [h]
      omega
    · simp [h]
      omega
  · unfold jsonValid
    simp [List.length_eq_zero]

/-- **C3, counterexample.**  The claim says the parse-failure diagnostic
carries the parser-reported position when there is one.  The code sets
`Line: 0, Column: 0` unconditionally: for a parser error reporting line
3, the produced diagnostic still has line 0. -/
theorem c3_parse_position_counterexample :
    ¬ (∀ (e : ParseErr), ∀ d ∈ validateReaderModel (.error e) none "f",
        d.line = (match e.pos with | some lc => lc.1 | none => 0)) := by
  intro h
  have he : validateReaderModel (.error ⟨"bad", some (3, 5)⟩) none "f" =
      [⟨"f", 0, 0, "YAML parse error: yaml: line 3: bad", .error⟩] := by
    rfl
  have hm : (⟨"f", 0, 0, "YAML parse error: yaml: line 3: bad", .error⟩ : Diagnostic) ∈
      validateReaderModel (.error ⟨"bad", some (3, 5)⟩) none "f" := by
    rw [he]
    exact List.mem_singleton.mpr rfl
  have := h ⟨"bad", some (3, 5)⟩ _ hm
  simp at this

/-- **C3, amended.**  When YAML parsing fails, validation returns exactly
one diagnostic: Error severity, message `"YAML parse error: "` followed
by the parser's own message (any position the parser reports appears only
inside that text), line and column always 0, and no schema validation or
deprecation scanning is performed. -/
theorem c3_parse_failure_amended (e : ParseErr) (nr : Option YNode) (src : String) :
    validateReaderModel (.error e) nr src =
      [⟨src, 0, 0, "YAML parse error: " ++ renderParseErr e, .error⟩] := by
  rfl

/-- **C9.**  Merging the two validation phases keeps Phase A intact at
the front; the part appended after it consists exactly of the Phase B
violations whose message text equals no Phase A message, in Phase B
order; and the full pipeline places this merge before the deprecation
warnings. -/
theorem c9_phase_dedup (A B : List Diagnostic) :
    (combineDiagnostics A B).take A.length = A ∧
    (combineDiagnostics A B).drop A.length =
      B.filter (fun d => decide (∀ a ∈ A, a.message ≠ d.message)) ∧
    (∀ (v : Val) (nr : Option YNode) (src : String),
      validateReaderModel (.ok v) nr src =
        combineDiagnostics (phaseADiags src (normalizeSpotValues v))
            (phaseBDiags src (normalizeSpotValues v)) ++
          (match nr with
           | some node => checkDeprecatedFields src node
           | none => checkDeprecatedFieldsRecursive src (normalizeSpotValues v) "")) := by
  refine ⟨?_, ?_, ?_⟩
  · simp [combineDiagnostics, List.take_left]
  · simp only [combineDiagnostics, List.drop_left]
    refine List.filter_congr ?_
    intro d _
    rw [Bool.eq_iff_iff]
    simp [existingMsg]
  · intro v nr src
    rfl

/-- Stepping `getP` through a mapping key. -/
theorem getP_map_key (es : List (String × Val)) (k : String) (p : List PathElem) :
    getP (.map es) (.key k :: p) = (lookupFirst es k).bind (fun v => getP v p) := by
  rw [getP]
  cases lookupFirst es k <;> rfl

/-- Stepping `getP` through a sequence index. -/
theorem getP_seq_idx (xs : List Val) (i : Nat) (p : List PathElem) :
    getP (.seq xs) (.idx i :: p) = (xs.get? i).bind (fun v => getP v p) := by
  rw [getP]
  cases xs.get? i <;> rfl

/-- Key-preserving action of `normTopEntries` on first-match lookup. -/
theorem lookupFirst_normTopEntries (es : List (String × Val)) (k : String) :
    lookupFirst (normTopEntries es) k =
      (lookupFirst es k).map
        (fun v => if k = "runners" then normRunnersVal v else normalizeSpotValues v) := by
  induction es with
  | nil => simp [normTopEntries, lookupFirst]
  | cons e rest ih =>
    obtain ⟨ek, ev⟩ := e
    by_cases hk : ek = k
    · subst hk
      simp [normTopEntries, lookupFirst]
    · simp [normTopEntries, lookupFirst, hk, ih]

/-- Key-preserving action of `normRunners` on first-match lookup. -/
theorem lookupFirst_normRunners (rm : List (String × Val)) (r : String) :
    lookupFirst (normRunners rm) r = (lookupFirst rm r).map normRunnerVal := by
  induction rm with
  | nil => simp [normRunners, lookupFirst]
  | cons e rest ih =>
    obtain ⟨ek, ev⟩ := e
    by_cases hk : ek = r
    · subst hk
      simp [normRunners, lookupFirst]
    · simp [normRunners, lookupFirst, hk, ih]

/-- Key-preserving action of `normSpec` on first-match lookup. -/
theorem lookupFirst_normSpec (spec : List (String × Val)) (k : String) :
    lookupFirst (normSpec spec) k =
      (lookupFirst spec k).map
        (fun v => if k = "spot" then normSpotVal v else normalizeSpotValues v) := by
  induction spec with
  | nil => simp [normSpec, lookupFirst]
  | cons e rest ih =>
    obtain ⟨ek, ev⟩ := e
    by_cases hk : ek = k
    · subst hk
      simp [normSpec, lookupFirst]
    · simp [normSpec, lookupFirst, hk, ih]

/-- `normTopEntries` at the `runners` key itself. -/
theorem lookupFirst_normTopEntries_runners (es : List (String × Val)) :
    lookupFirst (normTopEntries es) "runners" =
      (lookupFirst es "runners").map normRunnersVal := by
  rw [lookupFirst_normTopEntries]
  cases lookupFirst es "runners" <;> simp

/-- `normSpec` at the `spot` key itself. -/
theorem lookupFirst_normSpec_spot (spec : List (String × Val)) :
    lookupFirst (normSpec spec) "spot" = (lookupFirst spec "spot").map normSpotVal := by
  rw [lookupFirst_normSpec]
  cases lookupFirst spec "spot" <;> simp

/-- **C2, counterexample.**  The claim says a `runners.*.spot` value of
mapping kind is left unchanged.  But the source recurses into a non-Bool
spot value, so a mapping there that itself contains the
`runners → runner → spot` pattern is rewritten inside. -/
theorem c2_spot_mapping_counterexample :
    getP (normalizeSpotValues (.map [("runners", .map [("r", .map [("spot",
        .map [("runners", .map [("q", .map [("spot", .bool false)])])])])])]))
      [.key "runners", .key "r", .key "spot"] =
      some (.map [("runners", .map [("q", .map [("spot", .str "false")])])]) ∧
    getP (normalizeSpotValues (.map [("runners", .map [("r", .map [("spot",
        .map [("runners", .map [("q", .map [("spot", .bool false)])])])])])]))
      [.key "runners", .key "r", .key "spot"] ≠
      getP (.map [("runners", .map [("r", .map [("spot",
        .map [("runners", .map [("q", .map [("spot", .bool false)])])])])])])
        [.key "runners", .key "r", .key "spot"] := by
  constructor <;>
    simp [getP, lookupFirst, normalizeSpotValues, normTopEntries, normRunnersVal, normRunners,
      normRunnerVal, normSpec, normSpotVal, normList]

/-- **C2, amended.**  At path `runners.*.spot` the normalization pass
rewrites Bool(true) to String("true") and Bool(false) to
String("false"); a scalar spot value of any other kind (string, int,
null) is unchanged; a sequence or mapping spot value is recursed into
(so the runners-spot pattern nested inside it is still rewritten). -/
theorem c2_spot_rewrite_amended (t : Val) (r : String) (sv : Val)
    (h : getP t [.key "runners", .key r, .key "spot"] = some sv) :
    getP (normalizeSpotValues t) [.key "runners", .key r, .key "spot"] =
      some (spotRewrite sv) := by
  cases t with
  | map es =>
    rw [getP_map_key] at h
    cases hrv : lookupFirst es "runners" with
    | none => rw [hrv] at h; simp at h
    | some rv =>
      rw [hrv, Option.some_bind] at h
      cases rv with
      | map rm =>
        rw [getP_map_key] at h
        cases hrrv : lookupFirst rm r with
        | none => rw [hrrv] at h; simp at h
        | some rrv =>
          rw [hrrv, Option.some_bind] at h
          cases rrv with
          | map spec =>
            rw [getP_map_key] at h
            cases hsv : lookupFirst spec "spot" with
            | none => rw [hsv] at h; simp at h
            | some sv' =>
              rw [hsv, Option.some_bind, getP] at h
              have hsv' : sv' = sv := Option.some.inj h
              subst hsv'
              rw [normalizeSpotValues]
              rw [getP_map_key, lookupFirst_normTopEntries_runners, hrv]
              simp only [Option.map_some', Option.some_bind]
              rw [normRunnersVal]
              rw [getP_map_key, lookupFirst_normRunners, hrrv]
              simp only [Option.map_some', Option.some_bind]
              rw [normRunnerVal]
              rw [getP_map_key, lookupFirst_normSpec_spot, hsv]
              simp only [Option.map_some', Option.some_bind]
              rw [getP]
              cases sv' <;> simp [normSpotVal, spotRewrite, normalizeSpotValues]
          | null => simp [getP] at h
          | bool b => simp [getP] at h
          | int n => simp [getP] at h
          | str s => simp [getP] at h
          | seq xs => simp [getP] at h
      | null => simp [getP] at h
      | bool b => simp [getP] at h
      | int n => simp [getP] at h
      | str s => simp [getP] at h
      | seq xs => simp [getP] at h
  | null => simp [getP] at h
  | bool b => simp [getP] at h
  | int n => simp [getP] at h
  | str s => simp [getP] at h
  | seq xs => simp [getP] at h

/-- **C2, witness.**  The amended theorem at a concrete document with a
boolean spot value. -/
theorem c2_spot_rewrite_witness :
    getP (normalizeSpotValues (.map [("runners", .map [("r", .map [("spot", .bool true)])])]))
      [.key "runners", .key "r", .key "spot"] = some (spotRewrite (.bool true)) :=
  c2_spot_rewrite_amended (.map [("runners", .map [("r", .map [("spot", .bool true)])])])
    "r" (.bool true) (by simp [getP, lookupFirst])

/-- Values of mapping entries are smaller than the entry list. -/
theorem sizeOf_snd_lt_of_mem {es : List (String × Val)} {kv : String × Val}
    (h : kv ∈ es) : sizeOf kv.2 < sizeOf es := by
  have h1 := List.sizeOf_lt_of_mem h
  have h2 : sizeOf kv.2 < sizeOf kv := by
    obtain ⟨k, v⟩ := kv
    simp
  omega

/-- `normTopEntries` is idempotent on entry lists whose values all
satisfy `NormIdem`. -/
theorem normTopEntries_idem_of {es : List (String × Val)}
    (h : ∀ kv ∈ es, NormIdem kv.2) :
    normTopEntries (normTopEntries es) = normTopEntries es := by
  induction es with
  | nil => simp [normTopEntries]
  | cons e rest ih =>
    obtain ⟨k, v⟩ := e
    have hv : NormIdem v := h (k, v) (List.mem_cons_self _ _)
    have hrest : ∀ kv ∈ rest, NormIdem kv.2 := fun kv hm => h kv (List.mem_cons_of_mem _ hm)
    by_cases hk : k = "runners"
    · simp [normTopEntries, hk, hv.2.1, ih hrest]
    · simp [normTopEntries, hk, hv.1, ih hrest]

/-- `normRunners` is idempotent on entry lists whose values all satisfy
`NormIdem`. -/
theorem normRunners_idem_of {rm : List (String × Val)}
    (h : ∀ kv ∈ rm, NormIdem kv.2) :
    normRunners (normRunners rm) = normRunners rm := by
  induction rm with
  | nil => simp [normRunners]
  | cons e rest ih =>
    obtain ⟨k, v⟩ := e
    have hv : NormIdem v := h (k, v) (List.mem_cons_self _ _)
    have hrest : ∀ kv ∈ rest, NormIdem kv.2 := fun kv hm => h kv (List.mem_cons_of_mem _ hm)
    simp [normRunners, hv.2.2.1, ih hrest]

/-- `normSpec` is idempotent on entry lists whose values all satisfy
`NormIdem`. -/
theorem normSpec_idem_of {spec : List (String × Val)}
    (h : ∀ kv ∈ spec, NormIdem kv.2) :
    normSpec (normSpec spec) = normSpec spec := by
  induction spec with
  | nil => simp [normSpec]
  | cons e rest ih =>
    obtain ⟨k, v⟩ := e
    have hv : NormIdem v := h (k, v) (List.mem_cons_self _ _)
    have hrest : ∀ kv ∈ rest, NormIdem kv.2 := fun kv hm => h kv (List.mem_cons_of_mem _ hm)
    by_cases hk : k = "spot"
    · simp [normSpec, hk, hv.2.2.2, ih hrest]
    · simp [normSpec, hk, hv.1, ih hrest]

/-- `normList` is idempotent on lists whose elements all satisfy
`NormIdem`. -/
theorem normList_idem_of {xs : List Val} (h : ∀ x ∈ xs, NormIdem x) :
    normList (normList xs) = normList xs := by
  induction xs with
  | nil => simp [normList]
  | cons x rest ih =>
    have hx : NormIdem x := h x (List.mem_cons_self _ _)
    have hrest : ∀ y ∈ rest, NormIdem y := fun y hm => h y (List.mem_cons_of_mem _ hm)
    simp [normList, hx.1, ih hrest]

/-- Every value satisfies `NormIdem`, by strong induction on size. -/
theorem normIdem_all (v : Val) : NormIdem v := by
  suffices h : ∀ (n : Nat) (w : Val), sizeOf w ≤ n → NormIdem w from h (sizeOf v) v le_rfl
  intro n
  induction n with
  | zero =>
    intro w hw
    exfalso
    cases w <;> simp at hw
  | succ n ih =>
    intro w hw
    cases w with
    | null =>
      refine ⟨?_, ?_, ?_, ?_⟩ <;>
        simp [normalizeSpotValues, normRunnersVal, normRunnerVal, normSpotVal]
    | bool b =>
      refine ⟨?_, ?_, ?_, ?_⟩ <;>
        simp [normalizeSpotValues, normRunnersVal, normRunnerVal, normSpotVal]
    | int m =>
      refine ⟨?_, ?_, ?_, ?_⟩ <;>
        simp [normalizeSpotValues, normRunnersVal, normRunnerVal, normSpotVal]
    | str s =>
      refine ⟨?_, ?_, ?_, ?_⟩ <;>
        simp [normalizeSpotValues, normRunnersVal, normRunnerVal, normSpotVal]
    | seq xs =>
      have hmem : ∀ x ∈ xs, NormIdem x := by
        intro x hx
        apply ih
        have h1 : sizeOf x < sizeOf xs := List.sizeOf_lt_of_mem hx
        have h2 : sizeOf (Val.seq xs) = 1 + sizeOf xs := by simp
        omega
      refine ⟨?_, ?_, ?_, ?_⟩ <;>
        simp [normalizeSpotValues, normRunnersVal, normRunnerVal, normSpotVal,
          normList_idem_of hmem]
    | map es =>
      have hmem : ∀ kv ∈ es, NormIdem kv.2 := by
        intro kv hkv
        apply ih
        have h1 : sizeOf kv.2 < sizeOf es := sizeOf_snd_lt_of_mem hkv
        have h2 : sizeOf (Val.map es) = 1 + sizeOf es := by simp
        omega
      refine ⟨?_, ?_, ?_, ?_⟩
      · simp [normalizeSpotValues, normTopEntries_idem_of hmem]
      · simp [normRunnersVal, normRunners_idem_of hmem]
      · simp [normRunnerVal, normSpec_idem_of hmem]
      · simp [normSpotVal, normalizeSpotValues, normTopEntries_idem_of hmem]

/-- **C5.**  Normalization is idempotent: applying the pass twice yields
the tree obtained by applying it once. -/
theorem c5_normalization_idempotent (v : Val) :
    normalizeSpotValues (normalizeSpotValues v) = normalizeSpotValues v :=
  (normIdem_all v).1

/-- A conditional-cons fold is the map of the filter. -/
theorem foldr_ite_cons_eq_filter_map {α β : Type} (p : α → Prop) [DecidablePred p]
    (f : α → β) (l : List α) :
    l.foldr (fun a acc => if p a then f a :: acc else acc) [] =
      (l.filter fun a => p a).map f := by
  induction l with
  | nil => simp
  | cons a rest ih =>
    by_cases h : p a <;> simp [h, ih]

/-- A map commutes into an append-fold. -/
theorem map_foldr_append {α β γ : Type} (g : β → γ) (f : α → List β) (l : List α) :
    (l.foldr (fun a acc => f a ++ acc) []).map g =
      l.foldr (fun a acc => (f a).map g ++ acc) [] := by
  induction l with
  | nil => simp
  | cons a rest ih => simp [ih]

/-- An append-fold of pointwise-empty functions is empty. -/
theorem foldr_append_eq_nil {α β : Type} {f : α → List β} (l : List α)
    (h : ∀ a ∈ l, f a = []) : l.foldr (fun a acc => f a ++ acc) [] = [] := by
  induction l with
  | nil => rfl
  | cons a rest ih =>
    rw [List.foldr_cons, h a (List.mem_cons_self _ _),
      ih fun b hb => h b (List.mem_cons_of_mem _ hb), List.nil_append]

/-- Append-folds of pointwise-equal functions agree. -/
theorem foldr_append_congr {α β : Type} {f g : α → List β} (l : List α)
    (h : ∀ a ∈ l, f a = g a) :
    l.foldr (fun a acc => f a ++ acc) [] = l.foldr (fun a acc => g a ++ acc) [] := by
  induction l with
  | nil => rfl
  | cons a rest ih =>
    rw [List.foldr_cons, List.foldr_cons, h a (List.mem_cons_self _ _),
      ih fun b hb => h b (List.mem_cons_of_mem _ hb)]

/-- The per-runner field scan produces exactly one disk warning per
`disk` key occurrence, at the key token's position. -/
theorem scanRunnerFields_eq (src : String) (l : List YNode) :
    scanRunnerFields src l =
      ((evenIdx l).filter fun fk => fk.value = "disk").map
        (fun fk => ⟨src, fk.line, fk.column, diskDeprecationMsg, .warning⟩) := by
  rw [scanRunnerFields, foldr_ite_cons_eq_filter_map]

/-- The per-pool field scan produces exactly one environment warning per
`environment` key occurrence, at the key token's position. -/
theorem scanPoolFields_eq (src : String) (l : List YNode) :
    scanPoolFields src l =
      ((evenIdx l).filter fun fk => fk.value = "environment").map
        (fun fk => ⟨src, fk.line, fk.column, envDeprecationMsg, .warning⟩) := by
  rw [scanPoolFields, foldr_ite_cons_eq_filter_map]

/-- Refinement of the position-aware deprecation scanner against the
claim-side occurrence list: each occurrence of a `disk` key directly
under an entry of the root's `runners` mapping, and of an `environment`
key directly under an entry of the root's `pools` mapping, yields
exactly one Warning diagnostic at the key token's position, in document
order, and nothing else is produced. -/
theorem checkDeprecatedFields_eq_occurrences (src : String) (doc : YNode) :
    checkDeprecatedFields src doc =
      (deprecatedKeyOccurrences doc).map (mkDeprecationWarning src) := by
  obtain ⟨k, dv, dl, dc, content⟩ := doc
  cases k with
  | mapping => simp [checkDeprecatedFields, deprecatedKeyOccurrences]
  | sequence => simp [checkDeprecatedFields, deprecatedKeyOccurrences]
  | scalar => simp [checkDeprecatedFields, deprecatedKeyOccurrences]
  | aliasK => simp [checkDeprecatedFields, deprecatedKeyOccurrences]
  | document =>
  cases content with
  | nil => simp [checkDeprecatedFields, deprecatedKeyOccurrences]
  | cons root tail =>
    obtain ⟨rk, rv, rl, rc, rcontent⟩ := root
    cases rk with
    | document => simp [checkDeprecatedFields, deprecatedKeyOccurrences]
    | sequence => simp [checkDeprecatedFields, deprecatedKeyOccurrences]
    | scalar => simp [checkDeprecatedFields, deprecatedKeyOccurrences]
    | aliasK => simp [checkDeprecatedFields, deprecatedKeyOccurrences]
    | mapping =>
    simp only [checkDeprecatedFields, deprecatedKeyOccurrences]
    rw [map_foldr_append]
    refine foldr_append_congr _ ?_
    intro e _
    by_cases h1 : e.1.value = "runners" ∧ e.2.kind = YKind.mapping
    · rw [if_pos h1, if_pos h1, scanRunnersMap, map_foldr_append]
      refine foldr_append_congr _ ?_
      intro re _
      by_cases h2 : re.2.kind = YKind.mapping
      · rw [if_pos h2, if_pos h2, scanRunnerFields_eq, List.map_map]
        refine List.map_congr_left ?_
        intro fk _
        simp [mkDeprecationWarning]
      · rw [if_neg h2, if_neg h2]
        simp
    · rw [if_neg h1, if_neg h1]
      by_cases h3 : e.1.value = "pools" ∧ e.2.kind = YKind.mapping
      · rw [if_pos h3, if_pos h3, scanPoolsMap, map_foldr_append]
        refine foldr_append_congr _ ?_
        intro pe _
        by_cases h2 : pe.2.kind = YKind.mapping
        · rw [if_pos h2, if_pos h2, scanPoolFields_eq, List.map_map]
          refine List.map_congr_left ?_
          intro fk _
          simp [mkDeprecationWarning]
        · rw [if_neg h2, if_neg h2]
          simp
      · rw [if_neg h3, if_neg h3]
        simp

/-- Every warning of the fallback runners scan is a position-0 Warning. -/
theorem checkRunnersDisk_shape (src : String) (l : List (String × Val)) :
    ∀ d ∈ checkRunnersDisk src l,
      d.line = 0 ∧ d.column = 0 ∧ d.severity = Severity.warning := by
  induction l with
  | nil => simp [checkRunnersDisk]
  | cons e rest ih =>
    obtain ⟨k, v⟩ := e
    intro d hd
    simp only [checkRunnersDisk] at hd
    rcases List.mem_append.mp hd with h | h
    · split at h
      · split at h
        · simp at h
          subst h
          exact ⟨rfl, rfl, rfl⟩
        · simp at h
      · simp at h
    · exact ih d h

/-- Every warning of the fallback pools scan is a position-0 Warning. -/
theorem checkPoolsEnvironment_shape (src : String) (l : List (String × Val)) :
    ∀ d ∈ checkPoolsEnvironment src l,
      d.line = 0 ∧ d.column = 0 ∧ d.severity = Severity.warning := by
  induction l with
  | nil => simp [checkPoolsEnvironment]
  | cons e rest ih =>
    obtain ⟨k, v⟩ := e
    intro d hd
    simp only [checkPoolsEnvironment] at hd
    rcases List.mem_append.mp hd with h | h
    · split at h
      · split at h
        · simp at h
          subst h
          exact ⟨rfl, rfl, rfl⟩
        · simp at h
      · simp at h
    · exact ih d h

/-- Every diagnostic of the position-less fallback scanner is a Warning
with line and column 0. -/
theorem checkDeprecatedFieldsRecursive_shape (src : String) (v : Val) :
    ∀ (path : String), ∀ d ∈ checkDeprecatedFieldsRecursive src v path,
      d.line = 0 ∧ d.column = 0 ∧ d.severity = Severity.warning := by
  suffices h : ∀ (n : Nat) (w : Val), sizeOf w ≤ n → ∀ (path : String),
      ∀ d ∈ checkDeprecatedFieldsRecursive src w path,
        d.line = 0 ∧ d.column = 0 ∧ d.severity = Severity.warning from
    h (sizeOf v) v le_rfl
  intro n
  induction n with
  | zero =>
    intro w hw
    exfalso
    cases w <;> simp at hw
  | succ n ih =>
    intro w hw
    cases w with
    | null => intro path d hd; simp [checkDeprecatedFieldsRecursive] at hd
    | bool b => intro path d hd; simp [checkDeprecatedFieldsRecursive] at hd
    | int m => intro path d hd; simp [checkDeprecatedFieldsRecursive] at hd
    | str s => intro path d hd; simp [checkDeprecatedFieldsRecursive] at hd
    | map es =>
      have hsz : ∀ kv ∈ es, sizeOf kv.2 ≤ n := by
        intro kv hkv
        have h1 : sizeOf kv.2 < sizeOf es := sizeOf_snd_lt_of_mem hkv
        have h2 : sizeOf (Val.map es) = 1 + sizeOf es := by simp
        omega
      intro path d hd
      rw [checkDeprecatedFieldsRecursive] at hd
      clear hw
      induction es generalizing path with
      | nil => simp [checkDeprecatedEntries] at hd
      | cons e rest ihe =>
        obtain ⟨k, v⟩ := e
        simp only [checkDeprecatedEntries] at hd
        rcases List.mem_append.mp hd with h | h
        · split at h
          · split at h
            · exact checkRunnersDisk_shape src _ d h
            · simp at h
          · split at h
            · split at h
              · exact checkPoolsEnvironment_shape src _ d h
              · simp at h
            · exact ih v (hsz (k, v) (List.mem_cons_self _ _)) _ d h
        · exact ihe (fun kv hkv => hsz kv (List.mem_cons_of_mem _ hkv)) _ h
    | seq xs =>
      have hsz : ∀ x ∈ xs, sizeOf x ≤ n := by
        intro x hx
        have h1 : sizeOf x < sizeOf xs := List.sizeOf_lt_of_mem hx
        have h2 : sizeOf (Val.seq xs) = 1 + sizeOf xs := by simp
        omega
      intro path d hd
      rw [checkDeprecatedFieldsRecursive] at hd
      clear hw
      have hall : ∀ (ys : List Val), (∀ x ∈ ys, sizeOf x ≤ n) →
          ∀ (p2 : String) (i : Nat), ∀ d2 ∈ checkDeprecatedItems src ys p2 i,
            d2.line = 0 ∧ d2.column = 0 ∧ d2.severity = Severity.warning := by
        intro ys
        induction ys with
        | nil => intro _ p2 i d2 hd2; simp [checkDeprecatedItems] at hd2
        | cons x rest ihx =>
          intro hsz2 p2 i d2 hd2
          simp only [checkDeprecatedItems] at hd2
          rcases List.mem_append.mp hd2 with h | h
          · exact ih x (hsz2 x (List.mem_cons_self _ _)) _ d2 h
          · exact ihx (fun y hy => hsz2 y (List.mem_cons_of_mem _ hy)) _ _ _ h
      exact hall xs hsz path 0 d hd

/-- **C4.**  With position information, each occurrence of a `disk` key
directly under an entry of the root's `runners` mapping and each
occurrence of an `environment` key directly under an entry of the root's
`pools` mapping produces exactly one Warning diagnostic (naming the
deprecated field and its replacement) at the key token's line and
column; without position information, the fallback scan's diagnostics
are Warnings at line 0; and the pipeline appends the deprecation
warnings after the schema diagnostics, so they are produced even when
schema validation errors are present. -/
theorem c4_deprecation_warnings (src : String) (doc : YNode) :
    checkDeprecatedFields src doc =
      (deprecatedKeyOccurrences doc).map (mkDeprecationWarning src) ∧
    (∀ (v : Val) (path : String), ∀ d ∈ checkDeprecatedFieldsRecursive src v path,
      d.line = 0 ∧ d.column = 0 ∧ d.severity = Severity.warning) ∧
    (∀ (data : Val),
      validateReaderModel (.ok data) (some doc) src =
        combineDiagnostics (phaseADiags src (normalizeSpotValues data))
            (phaseBDiags src (normalizeSpotValues data)) ++
          checkDeprecatedFields src doc) := by
  refine ⟨checkDeprecatedFields_eq_occurrences src doc, ?_, ?_⟩
  · intro v path d hd
    exact checkDeprecatedFieldsRecursive_shape src v path d hd
  · intro data
    rfl

/-- **C10.**  The position-aware deprecation scanner only inspects the
mappings sitting directly under the `runners` and `pools` keys of the
document's root mapping: a document whose node is not a document node, a
document whose root is not a mapping, and a document whose root mapping
has no direct `runners`/`pools` key produce no warnings at all — whatever
`disk`/`environment` keys are nested deeper inside. -/
theorem c10_scanner_root_only (src : String) :
    (∀ (k : YKind) (v : String) (l c : Nat) (content : List YNode),
      k ≠ YKind.document → checkDeprecatedFields src (.node k v l c content) = []) ∧
    (∀ (dv : String) (dl dc : Nat) (rk : YKind) (rv : String) (rl rc : Nat)
        (rcontent : List YNode) (tail : List YNode),
      rk ≠ YKind.mapping →
      checkDeprecatedFields src
        (.node .document dv dl dc (.node rk rv rl rc rcontent :: tail)) = []) ∧
    (∀ (dv : String) (dl dc : Nat) (mv : String) (ml mc : Nat)
        (rcontent : List YNode) (tail : List YNode),
      (∀ e ∈ pairs rcontent, e.1.value ≠ "runners" ∧ e.1.value ≠ "pools") →
      checkDeprecatedFields src
        (.node .document dv dl dc (.node .mapping mv ml mc rcontent :: tail)) = []) := by
  refine ⟨?_, ?_, ?_⟩
  · intro k v l c content hk
    cases k <;> simp [checkDeprecatedFields] at hk ⊢
  · intro dv dl dc rk rv rl rc rcontent tail hk
    cases rk <;> simp [checkDeprecatedFields] at hk ⊢
  · intro dv dl dc mv ml mc rcontent tail hkeys
    simp only [checkDeprecatedFields]
    refine foldr_append_eq_nil _ ?_
    intro e he
    have hA : ¬(e.1.value = "runners" ∧ e.2.kind = YKind.mapping) :=
      fun h => (hkeys e he).1 h.1
    have hB : ¬(e.1.value = "pools" ∧ e.2.kind = YKind.mapping) :=
      fun h => (hkeys e he).2 h.1
    rw [if_neg hA, if_neg hB]

/-- `normSpec` preserves the key list. -/
theorem keys_normSpec (spec : List (String × Val)) :
    (normSpec spec).map Prod.fst = spec.map Prod.fst := by
  induction spec with
  | nil => simp [normSpec]
  | cons e rest ih =>
    obtain ⟨k, v⟩ := e
    simp [normSpec, ih]

/-- `normTopEntries` preserves the key list. -/
theorem keys_normTopEntries (es : List (String × Val)) :
    (normTopEntries es).map Prod.fst = es.map Prod.fst := by
  induction es with
  | nil => simp [normTopEntries]
  | cons e rest ih =>
    obtain ⟨k, v⟩ := e
    simp [normTopEntries, ih]

/-- `normRunners` preserves the key list. -/
theorem keys_normRunners (rm : List (String × Val)) :
    (normRunners rm).map Prod.fst = rm.map Prod.fst := by
  induction rm with
  | nil => simp [normRunners]
  | cons e rest ih =>
    obtain ⟨k, v⟩ := e
    simp [normRunners, ih]

/-- Normalizing a mapping yields a mapping with the same key list. -/
theorem norm_map_keys (spec : List (String × Val)) :
    ∃ w, normalizeSpotValues (.map spec) = .map w ∧ w.map Prod.fst = spec.map Prod.fst :=
  ⟨normTopEntries spec, by rw [normalizeSpotValues], keys_normTopEntries spec⟩

/-- The runners-mode helper on a mapping also preserves the key list. -/
theorem runnersVal_map_keys (spec : List (String × Val)) :
    ∃ w, normRunnersVal (.map spec) = .map w ∧ w.map Prod.fst = spec.map Prod.fst :=
  ⟨normRunners spec, by rw [normRunnersVal], keys_normRunners spec⟩

/-- Appending an entry with a fresh key does not disturb other lookups. -/
theorem lookupFirst_append_single {es : List (String × Val)} {k : String} {v : Val}
    {n : String} (h : n ≠ k) :
    lookupFirst (es ++ [(k, v)]) n = lookupFirst es n := by
  induction es with
  | nil =>
    simp [lookupFirst]
    intro hk
    exact absurd hk.symm h
  | cons e rest ih =>
    obtain ⟨ek, ev⟩ := e
    by_cases hek : ek = n
    · simp [lookupFirst, hek]
    · simp [lookupFirst, hek, ih]

/-- A present undeclared key contributes its unknown-field message. -/
theorem unknownFieldMsgs_mem {names : List String} {es : List (String × Val)}
    {k : String} (hmem : k ∈ es.map Prod.fst) (hnot : k ∉ names) (path : String) :
    (extPath path k ++ ": field not allowed") ∈ unknownFieldMsgs names es path := by
  induction es with
  | nil => simp at hmem
  | cons e rest ih =>
    obtain ⟨ek, ev⟩ := e
    simp only [List.map_cons, List.mem_cons] at hmem
    rw [unknownFieldMsgs]
    rcases hmem with h | h
    · subst h
      have hc : ¬ (names.contains k = true) := by
        simpa using hnot
      rw [if_neg hc]
      exact List.mem_cons_self _ _
    · by_cases hc : names.contains ek = true
      · rw [if_pos hc]
        exact ih h
      · rw [if_neg hc]
        exact List.mem_cons_of_mem _ (ih h)

/-- **C7.**  Unknown keys at the document root produce no diagnostic in
either validation phase (the root struct is open), while a key not
declared in the schema inside a RunnerSpec, ImageSpec or PoolSpec entry
produces an Error-severity diagnostic naming it in the final diagnostic
list (the spec structs are closed). -/
theorem c7_open_root_closed_specs (src : String) :
    (∀ (es : List (String × Val)) (k : String) (v : Val),
      k ∉ rootFieldNames → k ∉ es.map Prod.fst →
      validateA schemaConfig (.map (es ++ [(k, v)])) "" =
        validateA schemaConfig (.map es) "" ∧
      validateB schemaConfig (.map (es ++ [(k, v)])) "" =
        validateB schemaConfig (.map es) "") ∧
    (∀ (r : String) (spec : List (String × Val)) (k : String),
      k ∈ spec.map Prod.fst → k ∉ runnerFieldNames →
      (⟨src, 0, 0, extPath (extPath "runners" r) k ++ ": field not allowed",
        .error⟩ : Diagnostic) ∈
        validateReaderModel (.ok (.map [("runners", .map [(r, .map spec)])])) none src) ∧
    (∀ (i : String) (spec : List (String × Val)) (k : String),
      k ∈ spec.map Prod.fst → k ∉ imageFieldNames →
      (⟨src, 0, 0, extPath (extPath "images" i) k ++ ": field not allowed",
        .error⟩ : Diagnostic) ∈
        validateReaderModel (.ok (.map [("images", .map [(i, .map spec)])])) none src) ∧
    (∀ (p : String) (spec : List (String × Val)) (k : String),
      k ∈ spec.map Prod.fst → k ∉ poolFieldNames →
      (⟨src, 0, 0, extPath (extPath "pools" p) k ++ ": field not allowed",
        .error⟩ : Diagnostic) ∈
        validateReaderModel (.ok (.map [("pools", .map [(p, .map spec)])])) none src) := by
  refine ⟨?_, ?_, ?_, ?_⟩
  · intro es k v hk hkes
    have hne : k ≠ "_extends" ∧ k ≠ "runners" ∧ k ≠ "images" ∧ k ≠ "pools" ∧ k ≠ "admins" := by
      simpa [rootFieldNames, not_or] using hk
    obtain ⟨h1, h2, h3, h4, h5⟩ := hne
    constructor
    · simp only [schemaConfig, validateA, vaFields]
      rw [lookupFirst_append_single (Ne.symm h1), lookupFirst_append_single (Ne.symm h2),
        lookupFirst_append_single (Ne.symm h3), lookupFirst_append_single (Ne.symm h4),
        lookupFirst_append_single (Ne.symm h5)]
      simp
    · simp only [schemaConfig, validateB, vbFields]
      rw [lookupFirst_append_single (Ne.symm h1), lookupFirst_append_single (Ne.symm h2),
        lookupFirst_append_single (Ne.symm h3), lookupFirst_append_single (Ne.symm h4),
        lookupFirst_append_single (Ne.symm h5)]
  · intro r spec k hmem hk
    have hnorm : normalizeSpotValues (.map [("runners", .map [(r, .map spec)])]) =
        .map [("runners", .map [(r, .map (normSpec spec))])] := by
      simp [normalizeSpotValues, normTopEntries, normRunnersVal, normRunners, normRunnerVal]
    have hin : (extPath (extPath "runners" r) k ++ ": field not allowed") ∈
        validateA schemaConfig (.map [("runners", .map [(r, .map (normSpec spec))])]) "" := by
      have hkeys : k ∈ (normSpec spec).map Prod.fst := by
        rw [keys_normSpec]
        exact hmem
      have hmsg := unknownFieldMsgs_mem hkeys hk (extPath "runners" r)
      simp [schemaConfig, validateA, vaFields, vaEntries, lookupFirst, schemaRunnerSpec,
        List.mem_append]
      simp [schemaRunnerSpec, runnerFieldNames] at hmsg ⊢
      tauto
    simp only [validateReaderModel, hnorm, combineDiagnostics]
    refine List.mem_append_left _ (List.mem_append_left _ ?_)
    simp only [phaseADiags, toErrorDiagnostics]
    exact List.mem_map.mpr ⟨_, hin, rfl⟩
  · intro i spec k hmem hk
    obtain ⟨w, hw, hwkeys⟩ :
        ∃ w, normalizeSpotValues (.map [("images", .map [(i, .map spec)])]) =
          .map [("images", .map [(i, .map w)])] ∧ w.map Prod.fst = spec.map Prod.fst := by
      by_cases hi : i = "runners"
      · obtain ⟨w, hw, hk2⟩ := runnersVal_map_keys spec
        exact ⟨w, by simp [normalizeSpotValues, normTopEntries, hi, hw], hk2⟩
      · obtain ⟨w, hw, hk2⟩ := norm_map_keys spec
        exact ⟨w, by simp [normalizeSpotValues, normTopEntries, hi, hw], hk2⟩
    have hin : (extPath (extPath "images" i) k ++ ": field not allowed") ∈
        validateA schemaConfig (.map [("images", .map [(i, .map w)])]) "" := by
      have hkeys : k ∈ w.map Prod.fst := by
        rw [hwkeys]
        exact hmem
      have hmsg := unknownFieldMsgs_mem hkeys hk (extPath "images" i)
      simp [schemaConfig, validateA, vaFields, vaEntries, lookupFirst, schemaImageSpec,
        List.mem_append]
      simp [schemaImageSpec, imageFieldNames] at hmsg ⊢
      tauto
    simp only [validateReaderModel, hw, combineDiagnostics]
    refine List.mem_append_left _ (List.mem_append_left _ ?_)
    simp only [phaseADiags, toErrorDiagnostics]
    exact List.mem_map.mpr ⟨_, hin, rfl⟩
  · intro p spec k hmem hk
    obtain ⟨w, hw, hwkeys⟩ :
        ∃ w, normalizeSpotValues (.map [("pools", .map [(p, .map spec)])]) =
          .map [("pools", .map [(p, .map w)])] ∧ w.map Prod.fst = spec.map Prod.fst := by
      by_cases hp : p = "runners"
      · obtain ⟨w, hw, hk2⟩ := runnersVal_map_keys spec
        exact ⟨w, by simp [normalizeSpotValues, normTopEntries, hp, hw], hk2⟩
      · obtain ⟨w, hw, hk2⟩ := norm_map_keys spec
        exact ⟨w, by simp [normalizeSpotValues, normTopEntries, hp, hw], hk2⟩
    have hin : (extPath (extPath "pools" p) k ++ ": field not allowed") ∈
        validateA schemaConfig (.map [("pools", .map [(p, .map w)])]) "" := by
      have hkeys : k ∈ w.map Prod.fst := by
        rw [hwkeys]
        exact hmem
      have hmsg := unknownFieldMsgs_mem hkeys hk (extPath "pools" p)
      simp [schemaConfig, validateA, vaFields, vaEntries, lookupFirst, schemaPoolSpec,
        List.mem_append]
      simp [schemaPoolSpec, poolFieldNames] at hmsg ⊢
      tauto
    simp only [validateReaderModel, hw, combineDiagnostics]
    refine List.mem_append_left _ (List.mem_append_left _ ?_)
    simp only [phaseADiags, toErrorDiagnostics]
    exact List.mem_map.mpr ⟨_, hin, rfl⟩

/-- **C8.**  A runner with `spot: false` (boolean) and one with
`spot: "false"` (string) both validate with zero Error diagnostics; a
runner with `spot: "maybe"` yields exactly one Error diagnostic for that
field (one violation for the failed union, not one per alternative). -/
theorem c8_spot_polymorphism :
    errorCount (validateReaderModel
      (.ok (.map [("runners", .map [("r", .map [("spot", .bool false)])])])) none "f") = 0 ∧
    errorCount (validateReaderModel
      (.ok (.map [("runners", .map [("r", .map [("spot", .str "false")])])])) none "f") = 0 ∧
    validateReaderModel
      (.ok (.map [("runners", .map [("r", .map [("spot", .str "maybe")])])])) none "f" =
      [⟨"f", 0, 0, "runners.r.spot: value does not match any allowed alternative",
        .error⟩] := by
  refine ⟨?_, ?_, ?_⟩ <;>
    simp [validateReaderModel, phaseADiags, phaseBDiags, toErrorDiagnostics, combineDiagnostics,
      existingMsg, errorCount, normalizeSpotValues, normTopEntries, normRunnersVal, normRunners,
      normRunnerVal, normSpec, normSpotVal, normList, validateA, vaFields, vaElems, vaEntries,
      validateB, vbFields, vbElems, vbEntries, schemaConfig, schemaRunnerSpec, schemaIntArray,
      schemaStringArray, schemaBoolOrString, schemaSpotValue, schemaImageSpec, schemaPoolSpec,
      schemaPoolSchedule, schemaScheduleMatch, lookupFirst, extPath, schemaMatches,
      schemaMatchesAny, schemaMatchesFields, schemaMatchesElems, schemaMatchesEntries,
      intConstraintOk, strConstraintOk, unknownFieldMsgs, checkDeprecatedFieldsRecursive,
      checkDeprecatedEntries, checkRunnersDisk, checkPoolsEnvironment, checkDeprecatedItems]

/-- `getP` at the empty path. -/
theorem getP_nil (v : Val) : getP v [] = some v := by
  rw [getP]

/-- Prefixing preserves the full-pattern shape. -/
theorem fullPat_cons {s : List PathElem} (e : PathElem) (h : FullPat s) :
    FullPat (e :: s) := by
  obtain ⟨q, r, hq⟩ := h
  exact ⟨e :: q, r, by simp [hq]⟩

/-- Prefixing both paths preserves comparability. -/
theorem comp_cons {s p : List PathElem} (e : PathElem)
    (h : s <+: p ∨ p <+: s) : (e :: s) <+: (e :: p) ∨ (e :: p) <+: (e :: s) := by
  rcases h with h | h
  · exact Or.inl (List.cons_prefix_cons.mpr ⟨rfl, h⟩)
  · exact Or.inr (List.cons_prefix_cons.mpr ⟨rfl, h⟩)

/-- A successful lookup exhibits a member entry. -/
theorem lookupFirst_some_mem {es : List (String × Val)} {k : String} {v : Val}
    (h : lookupFirst es k = some v) : (k, v) ∈ es := by
  induction es with
  | nil => simp [lookupFirst] at h
  | cons e rest ih =>
    obtain ⟨ek, ev⟩ := e
    rw [lookupFirst] at h
    by_cases hek : ek = k
    · rw [if_pos hek] at h
      obtain rfl := Option.some.inj h
      exact hek ▸ List.mem_cons_self _ _
    · rw [if_neg hek] at h
      exact List.mem_cons_of_mem _ (ih h)

/-- A successful lookup's key occurs in the key list. -/
theorem lookupFirst_mem_keys {es : List (String × Val)} {k : String} {v : Val}
    (h : lookupFirst es k = some v) : k ∈ es.map Prod.fst := by
  have := lookupFirst_some_mem h
  exact List.mem_map.mpr ⟨(k, v), this, rfl⟩

/-- Unpacking well-formedness of a mapping. -/
theorem wfVal_map_parts {es : List (String × Val)} (h : wfVal (.map es) = true) :
    wfKeys (es.map Prod.fst) = true ∧ ∀ kv ∈ es, wfVal kv.2 = true := by
  rw [wfVal, Bool.and_eq_true] at h
  refine ⟨h.1, ?_⟩
  have h2 := h.2
  clear h
  induction es with
  | nil => simp
  | cons e rest ih =>
    obtain ⟨k, v⟩ := e
    rw [wfEntries, Bool.and_eq_true] at h2
    intro kv hkv
    rcases List.mem_cons.mp hkv with h | h
    · subst h
      exact h2.1
    · exact ih h2.2 kv h

/-- Unpacking well-formedness of a sequence. -/
theorem wfVal_seq_parts {xs : List Val} (h : wfVal (.seq xs) = true) :
    ∀ x ∈ xs, wfVal x = true := by
  rw [wfVal] at h
  induction xs with
  | nil => simp
  | cons x rest ih =>
    rw [wfList, Bool.and_eq_true] at h
    intro y hy
    rcases List.mem_cons.mp hy with h2 | h2
    · subst h2
      exact h.1
    · exact ih h.2 y h2

/-- `normTopEntries` as a map over entries. -/
theorem normTopEntries_eq_map (es : List (String × Val)) :
    normTopEntries es =
      es.map fun kv =>
        (kv.1, if kv.1 = "runners" then normRunnersVal kv.2 else normalizeSpotValues kv.2) := by
  induction es with
  | nil => simp [normTopEntries]
  | cons e rest ih =>
    obtain ⟨k, v⟩ := e
    rw [normTopEntries, ih, List.map_cons]

/-- `normRunners` as a map over entries. -/
theorem normRunners_eq_map (rm : List (String × Val)) :
    normRunners rm = rm.map fun kv => (kv.1, normRunnerVal kv.2) := by
  induction rm with
  | nil => simp [normRunners]
  | cons e rest ih =>
    obtain ⟨k, v⟩ := e
    rw [normRunners, ih, List.map_cons]

/-- `normSpec` as a map over entries. -/
theorem normSpec_eq_map (spec : List (String × Val)) :
    normSpec spec =
      spec.map fun kv =>
        (kv.1, if kv.1 = "spot" then normSpotVal kv.2 else normalizeSpotValues kv.2) := by
  induction spec with
  | nil => simp [normSpec]
  | cons e rest ih =>
    obtain ⟨k, v⟩ := e
    rw [normSpec, ih, List.map_cons]

/-- `normList` as a map. -/
theorem normList_eq_map (xs : List Val) :
    normList xs = xs.map normalizeSpotValues := by
  induction xs with
  | nil => simp [normList]
  | cons x rest ih =>
    rw [normList, ih, List.map_cons]

/-- `normList` elementwise through `get?`. -/
theorem normList_get (xs : List Val) (i : Nat) :
    (normList xs).get? i = (xs.get? i).map normalizeSpotValues := by
  rw [normList_eq_map, List.get?_map]

/-- If an entrywise transform changes a duplicate-free entry list, some
entry, found by first-match lookup, is changed by the transform. -/
theorem map_entries_ne (f : String → Val → Val) :
    ∀ (es : List (String × Val)), wfKeys (es.map Prod.fst) = true →
      es.map (fun kv => (kv.1, f kv.1 kv.2)) ≠ es →
      ∃ k v, lookupFirst es k = some v ∧ f k v ≠ v := by
  intro es
  induction es with
  | nil => intro _ h; simp at h
  | cons e rest ih =>
    obtain ⟨k, v⟩ := e
    intro hwf hne
    rw [List.map_cons, wfKeys, Bool.and_eq_true] at hwf
    by_cases hfv : f k v = v
    · have hne2 : rest.map (fun kv => (kv.1, f kv.1 kv.2)) ≠ rest := by
        intro h
        apply hne
        rw [List.map_cons, hfv, h]
      obtain ⟨k', v', hlk, hT⟩ := ih hwf.2 hne2
      have hkk : k ≠ k' := by
        intro h
        subst h
        have hnc := hwf.1
        simp at hnc
        exact hnc v' (lookupFirst_some_mem hlk)
      refine ⟨k', v', ?_, hT⟩
      rw [lookupFirst, if_neg hkk]
      exact hlk
    · exact ⟨k, v, by rw [lookupFirst, if_pos rfl], hfv⟩

/-- If a map changes a list, it changes some element, found by index. -/
theorem map_ne_exists_get {g : Val → Val} :
    ∀ (xs : List Val), xs.map g ≠ xs →
      ∃ i x, xs.get? i = some x ∧ g x ≠ x := by
  intro xs
  induction xs with
  | nil => intro h; simp at h
  | cons x rest ih =>
    intro hne
    by_cases hgx : g x = x
    · have hne2 : rest.map g ≠ rest := by
        intro h
        apply hne
        rw [List.map_cons, hgx, h]
      obtain ⟨i, y, hget, hT⟩ := ih hne2
      exact ⟨i + 1, y, by simpa using hget, hT⟩
    · exact ⟨0, x, rfl, hgx⟩

/-- The runners-mode frame follows from the generic one wherever the two
helpers agree. -/
theorem frameRunv_of_gen {v : Val} (he : normRunnersVal v = normalizeSpotValues v)
    (hg : FrameGen v) : FrameRunv v := by
  intro p hne
  rw [he] at hne
  obtain ⟨s, hs, hb, hc⟩ := hg p hne
  exact ⟨s, Or.inl hs, hb, hc⟩

/-- The single-runner frame follows from the generic one wherever the two
helpers agree. -/
theorem frameRunnerv_of_gen {v : Val} (he : normRunnerVal v = normalizeSpotValues v)
    (hg : FrameGen v) : FrameRunnerv v := by
  intro p hne
  rw [he] at hne
  obtain ⟨s, hs, hb, hc⟩ := hg p hne
  exact ⟨s, Or.inl hs, hb, hc⟩

/-- The spot-value frame follows from the generic one wherever the two
helpers agree. -/
theorem frameSpotv_of_gen {v : Val} (he : normSpotVal v = normalizeSpotValues v)
    (hg : FrameGen v) : FrameSpotv v := by
  intro p hne
  rw [he] at hne
  obtain ⟨s, hs, hb, hc⟩ := hg p hne
  exact ⟨s, Or.inl hs, hb, hc⟩

/-- Every well-formed value enjoys all four frame properties: the
normalizer can differ from the identity only at paths comparable to a
Bool-valued spot rewrite site. -/
theorem frameAll_of_wf (v : Val) (hwf : wfVal v = true) : FrameAll v := by
  suffices h : ∀ (n : Nat) (w : Val), sizeOf w ≤ n → wfVal w = true → FrameAll w from
    h (sizeOf v) v le_rfl hwf
  intro n
  induction n with
  | zero =>
    intro w hw _
    exfalso
    cases w <;> simp at hw
  | succ n ih =>
    intro w hw hwfw
    cases w with
    | null =>
      refine ⟨?_, ?_, ?_, ?_⟩ <;>
        exact fun p hne => absurd (by simp [normalizeSpotValues, normRunnersVal,
          normRunnerVal, normSpotVal]) hne
    | int m =>
      refine ⟨?_, ?_, ?_, ?_⟩ <;>
        exact fun p hne => absurd (by simp [normalizeSpotValues, normRunnersVal,
          normRunnerVal, normSpotVal]) hne
    | str s =>
      refine ⟨?_, ?_, ?_, ?_⟩ <;>
        exact fun p hne => absurd (by simp [normalizeSpotValues, normRunnersVal,
          normRunnerVal, normSpotVal]) hne
    | bool b =>
      refine ⟨?_, ?_, ?_, ?_⟩
      · exact fun p hne => absurd (by simp [normalizeSpotValues]) hne
      · exact fun p hne => absurd (by simp [normRunnersVal, normalizeSpotValues]) hne
      · exact fun p hne => absurd (by simp [normRunnerVal, normalizeSpotValues]) hne
      · intro p hne
        exact ⟨[], Or.inr rfl, ⟨b, getP_nil _⟩, Or.inl (List.nil_prefix)⟩
    | seq xs =>
      have hxs : ∀ x ∈ xs, FrameAll x := by
        intro x hx
        refine ih x ?_ (wfVal_seq_parts hwfw x hx)
        have h1 : sizeOf x < sizeOf xs := List.sizeOf_lt_of_mem hx
        have h2 : sizeOf (Val.seq xs) = 1 + sizeOf xs := by simp
        omega
      have hgen : FrameGen (.seq xs) := by
        intro p hne
        rw [normalizeSpotValues] at hne
        cases p with
        | nil =>
          rw [getP_nil, getP_nil] at hne
          have hne2 : xs.map normalizeSpotValues ≠ xs := by
            intro h
            apply hne
            rw [normList_eq_map, h]
          obtain ⟨i, x, hget, hgx⟩ := map_ne_exists_get xs hne2
          have hfa : FrameAll x := hxs x (List.get?_mem hget)
          have hdiff : getP (normalizeSpotValues x) [] ≠ getP x [] := by
            rw [getP_nil, getP_nil]
            simp [hgx]
          obtain ⟨s, hs, ⟨b, hb⟩, _⟩ := hfa.1 [] hdiff
          refine ⟨.idx i :: s, fullPat_cons _ hs, ⟨b, ?_⟩, Or.inr (List.nil_prefix)⟩
          rw [getP_seq_idx, hget, Option.some_bind]
          exact hb
        | cons e p' =>
          cases e with
          | key k =>
            exact absurd (by simp [getP]) hne
          | idx i =>
            rw [getP_seq_idx, getP_seq_idx, normList_get] at hne
            cases hget : xs.get? i with
            | none => rw [hget] at hne; simp at hne
            | some x =>
              rw [hget] at hne
              simp only [Option.map_some', Option.some_bind] at hne
              have hfa := hxs x (List.get?_mem hget)
              obtain ⟨s, hs, ⟨b, hb⟩, hc⟩ := hfa.1 p' hne
              refine ⟨.idx i :: s, fullPat_cons _ hs, ⟨b, ?_⟩, comp_cons _ hc⟩
              rw [getP_seq_idx, hget, Option.some_bind]
              exact hb
      exact ⟨hgen, frameRunv_of_gen (by simp [normRunnersVal]) hgen,
        frameRunnerv_of_gen (by simp [normRunnerVal]) hgen,
        frameSpotv_of_gen (by simp [normSpotVal]) hgen⟩
    | map es =>
      obtain ⟨hkeys, hvals⟩ := wfVal_map_parts hwfw
      have hmem : ∀ kv ∈ es, FrameAll kv.2 := by
        intro kv hkv
        refine ih kv.2 ?_ (hvals kv hkv)
        have h1 : sizeOf kv.2 < sizeOf es := sizeOf_snd_lt_of_mem hkv
        have h2 : sizeOf (Val.map es) = 1 + sizeOf es := by simp
        omega
      have hgen : FrameGen (.map es) := by
        intro p hne
        rw [normalizeSpotValues] at hne
        cases p with
        | nil =>
          rw [getP_nil, getP_nil] at hne
          have hne2 : es.map (fun kv => (kv.1,
              if kv.1 = "runners" then normRunnersVal kv.2 else normalizeSpotValues kv.2)) ≠ es := by
            intro h
            apply hne
            rw [normTopEntries_eq_map, h]
          obtain ⟨k, v, hlk, hT⟩ :=
            map_entries_ne
              (fun k v => if k = "runners" then normRunnersVal v else normalizeSpotValues v)
              es hkeys hne2
          have hfa : FrameAll v := hmem (k, v) (lookupFirst_some_mem hlk)
          by_cases hk : k = "runners"
          · rw [if_pos hk] at hT
            have hdiff : getP (normRunnersVal v) [] ≠ getP v [] := by
              rw [getP_nil, getP_nil]
              simp [hT]
            obtain ⟨s, hs, ⟨b, hb⟩, _⟩ := hfa.2.1 [] hdiff
            refine ⟨.key k :: s, ?_, ⟨b, ?_⟩, Or.inr (List.nil_prefix)⟩
            · rcases hs with hfull | ⟨r, hr⟩
              · exact fullPat_cons _ hfull
              · subst hr
                subst hk
                exact ⟨[], r, rfl⟩
            · rw [getP_map_key, hlk, Option.some_bind]
              exact hb
          · rw [if_neg hk] at hT
            have hdiff : getP (normalizeSpotValues v) [] ≠ getP v [] := by
              rw [getP_nil, getP_nil]
              simp [hT]
            obtain ⟨s, hs, ⟨b, hb⟩, _⟩ := hfa.1 [] hdiff
            refine ⟨.key k :: s, fullPat_cons _ hs, ⟨b, ?_⟩, Or.inr (List.nil_prefix)⟩
            rw [getP_map_key, hlk, Option.some_bind]
            exact hb
        | cons e p' =>
          cases e with
          | idx i =>
            exact absurd (by simp [getP]) hne
          | key k =>
            rw [getP_map_key, getP_map_key, lookupFirst_normTopEntries] at hne
            cases hlk : lookupFirst es k with
            | none => rw [hlk] at hne; simp at hne
            | some v =>
              rw [hlk] at hne
              simp only [Option.map_some', Option.some_bind] at hne
              have hfa := hmem (k, v) (lookupFirst_some_mem hlk)
              by_cases hk : k = "runners"
              · rw [if_pos hk] at hne
                obtain ⟨s, hs, ⟨b, hb⟩, hc⟩ := hfa.2.1 p' hne
                refine ⟨.key k :: s, ?_, ⟨b, ?_⟩, comp_cons _ hc⟩
                · rcases hs with hfull | ⟨r, hr⟩
                  · exact fullPat_cons _ hfull
                  · subst hr
                    subst hk
                    exact ⟨[], r, rfl⟩
                · rw [getP_map_key, hlk, Option.some_bind]
                  exact hb
              · rw [if_neg hk] at hne
                obtain ⟨s, hs, ⟨b, hb⟩, hc⟩ := hfa.1 p' hne
                refine ⟨.key k :: s, fullPat_cons _ hs, ⟨b, ?_⟩, comp_cons _ hc⟩
                rw [getP_map_key, hlk, Option.some_bind]
                exact hb
      have hrunv : FrameRunv (.map es) := by
        intro p hne
        rw [normRunnersVal] at hne
        cases p with
        | nil =>
          rw [getP_nil, getP_nil] at hne
          have hne2 : es.map (fun kv => (kv.1, normRunnerVal kv.2)) ≠ es := by
            intro h
            apply hne
            rw [normRunners_eq_map, h]
          obtain ⟨r, rv, hlk, hT⟩ :=
            map_entries_ne (fun _ v => normRunnerVal v) es hkeys hne2
          have hfa : FrameAll rv := hmem (r, rv) (lookupFirst_some_mem hlk)
          have hdiff : getP (normRunnerVal rv) [] ≠ getP rv [] := by
            rw [getP_nil, getP_nil]
            simp [hT]
          obtain ⟨s, hs, ⟨b, hb⟩, _⟩ := hfa.2.2.1 [] hdiff
          refine ⟨.key r :: s, ?_, ⟨b, ?_⟩, Or.inr (List.nil_prefix)⟩
          · rcases hs with hfull | hspot
            · exact Or.inl (fullPat_cons _ hfull)
            · subst hspot
              exact Or.inr ⟨r, rfl⟩
          · rw [getP_map_key, hlk, Option.some_bind]
            exact hb
        | cons e p' =>
          cases e with
          | idx i =>
            exact absurd (by simp [getP]) hne
          | key r =>
            rw [getP_map_key, getP_map_key, lookupFirst_normRunners] at hne
            cases hlk : lookupFirst es r with
            | none => rw [hlk] at hne; simp at hne
            | some rv =>
              rw [hlk] at hne
              simp only [Option.map_some', Option.some_bind] at hne
              have hfa := hmem (r, rv) (lookupFirst_some_mem hlk)
              obtain ⟨s, hs, ⟨b, hb⟩, hc⟩ := hfa.2.2.1 p' hne
              refine ⟨.key r :: s, ?_, ⟨b, ?_⟩, comp_cons _ hc⟩
              · rcases hs with hfull | hspot
                · exact Or.inl (fullPat_cons _ hfull)
                · subst hspot
                  exact Or.inr ⟨r, rfl⟩
              · rw [getP_map_key, hlk, Option.some_bind]
                exact hb
      have hrunnerv : FrameRunnerv (.map es) := by
        intro p hne
        rw [normRunnerVal] at hne
        cases p with
        | nil =>
          rw [getP_nil, getP_nil] at hne
          have hne2 : es.map (fun kv => (kv.1,
              if kv.1 = "spot" then normSpotVal kv.2 else normalizeSpotValues kv.2)) ≠ es := by
            intro h
            apply hne
            rw [normSpec_eq_map, h]
          obtain ⟨k, sv, hlk, hT⟩ :=
            map_entries_ne
              (fun k v => if k = "spot" then normSpotVal v else normalizeSpotValues v)
              es hkeys hne2
          have hfa : FrameAll sv := hmem (k, sv) (lookupFirst_some_mem hlk)
          by_cases hk : k = "spot"
          · rw [if_pos hk] at hT
            have hdiff : getP (normSpotVal sv) [] ≠ getP sv [] := by
              rw [getP_nil, getP_nil]
              simp [hT]
            obtain ⟨s, hs, ⟨b, hb⟩, _⟩ := hfa.2.2.2 [] hdiff
            refine ⟨.key k :: s, ?_, ⟨b, ?_⟩, Or.inr (List.nil_prefix)⟩
            · rcases hs with hfull | hnil
              · exact Or.inl (fullPat_cons _ hfull)
              · subst hnil
                subst hk
                exact Or.inr rfl
            · rw [getP_map_key, hlk, Option.some_bind]
              exact hb
          · rw [if_neg hk] at hT
            have hdiff : getP (normalizeSpotValues sv) [] ≠ getP sv [] := by
              rw [getP_nil, getP_nil]
              simp [hT]
            obtain ⟨s, hs, ⟨b, hb⟩, _⟩ := hfa.1 [] hdiff
            refine ⟨.key k :: s, Or.inl (fullPat_cons _ hs), ⟨b, ?_⟩,
              Or.inr (List.nil_prefix)⟩
            rw [getP_map_key, hlk, Option.some_bind]
            exact hb
        | cons e p' =>
          cases e with
          | idx i =>
            exact absurd (by simp [getP]) hne
          | key k =>
            rw [getP_map_key, getP_map_key, lookupFirst_normSpec] at hne
            cases hlk : lookupFirst es k with
            | none => rw [hlk] at hne; simp at hne
            | some sv =>
              rw [hlk] at hne
              simp only [Option.map_some', Option.some_bind] at hne
              have hfa := hmem (k, sv) (lookupFirst_some_mem hlk)
              by_cases hk : k = "spot"
              · rw [if_pos hk] at hne
                obtain ⟨s, hs, ⟨b, hb⟩, hc⟩ := hfa.2.2.2 p' hne
                refine ⟨.key k :: s, ?_, ⟨b, ?_⟩, comp_cons _ hc⟩
                · rcases hs with hfull | hnil
                  · exact Or.inl (fullPat_cons _ hfull)
                  · subst hnil
                    subst hk
                    exact Or.inr rfl
                · rw [getP_map_key, hlk, Option.some_bind]
                  exact hb
              · rw [if_neg hk] at hne
                obtain ⟨s, hs, ⟨b, hb⟩, hc⟩ := hfa.1 p' hne
                refine ⟨.key k :: s, Or.inl (fullPat_cons _ hs), ⟨b, ?_⟩, comp_cons _ hc⟩
                rw [getP_map_key, hlk, Option.some_bind]
                exact hb
      exact ⟨hgen, hrunv, hrunnerv, frameSpotv_of_gen (by simp [normSpotVal]) hgen⟩

/-- **C6.**  The Normalizer (a pure function on the tree — the caller's
tree is taken to a fresh result, never mutated) leaves every subtree that
is not reached through the structurally recognized
`runners → <runner> → spot` chain equal to its value in the input: at any
path neither leading to, at, nor inside a Bool-valued spot rewrite site,
the output agrees with the input. -/
theorem c6_normalizer_frame (t : Val) (p : List PathElem)
    (hwf : wfVal t = true)
    (h : ∀ s, isSpotRewriteSite t s → ¬ comparablePaths s p) :
    getP (normalizeSpotValues t) p = getP t p := by
  by_contra hne
  obtain ⟨s, hs, hb, hc⟩ := (frameAll_of_wf t hwf).1 p hne
  exact h s ⟨hs, hb⟩ hc

/-- **C6, witness.**  The frame theorem applied to a concrete document
with no spot rewrite site. -/
theorem c6_normalizer_frame_witness :
    getP (normalizeSpotValues (.str "x")) [.key "a"] = getP (.str "x") [.key "a"] := by
  refine c6_normalizer_frame (.str "x") [.key "a"] (by simp [wfVal]) ?_
  intro s hsite
  obtain ⟨hpat, b, hb⟩ := hsite
  exfalso
  cases s with
  | nil =>
    rw [getP_nil] at hb
    simp at hb
  | cons e rest =>
    simp [getP] at hb

end RunsOnConfig
